import Mathlib

/-!
Verification of the `colorblend` text colorizer.

A shallow embedding, over the rationals, of the core of `colorblend`
(`src/main.go`, three program variants concatenated): the gradient
progress mapper, the hue-delta computation of `blendHCLWithDirection`,
the hand-rolled RGB interpolator `getGradientColor` of the minimal
variant, the flag-validation sequence of the `flag`-based variant's
`main`, and the rendering loop of the cobra variant's `rootCmd.Run`.

IEEE `float64` arithmetic is modelled by exact rational arithmetic; the
only float operations the embedded code uses besides field operations
are `math.Mod` and `math.Round`, embedded below as `goMod` and
`goRound` with Go's documented semantics (truncated-division remainder,
round half away from zero).
-/

namespace Colorblend

/-- Truncation toward zero on rationals, as Go's `math.Trunc`. -/
def goTrunc (q : ℚ) : ℤ :=
  if 0 ≤ q then ⌊q⌋ else ⌈q⌉

/-- Go's `math.Mod x y`: the remainder `x - Trunc(x/y)*y`, whose sign
follows `x`. -/
def goMod (x y : ℚ) : ℚ :=
  x - y * (goTrunc (x / y) : ℚ)

/-- Go's `math.Round`: nearest integer, rounding half away from zero. -/
def goRound (q : ℚ) : ℤ :=
  if 0 ≤ q then ⌊q + 1/2⌋ else ⌈q - 1/2⌉

/-- Mathematical (floor-division) modulus on rationals, used to state the
spec's `mod` in claims C4/C5. -/
def mathMod (x y : ℚ) : ℚ :=
  x - y * (⌊x / y⌋ : ℚ)

theorem goTrunc_of_nonneg {q : ℚ} (h : 0 ≤ q) : goTrunc q = ⌊q⌋ := by
  simp [goTrunc, h]

theorem goMod_eq_mathMod {x y : ℚ} (hx : 0 ≤ x) (hy : 0 < y) :
    goMod x y = mathMod x y := by
  unfold goMod mathMod
  rw [goTrunc_of_nonneg (div_nonneg hx hy.le)]

theorem mathMod_nonneg {x y : ℚ} (hy : 0 < y) : 0 ≤ mathMod x y := by
  have h := Int.fract_nonneg (x / y)
  have : mathMod x y = y * Int.fract (x / y) := by
    unfold mathMod Int.fract
    field_simp
  rw [this]
  positivity

theorem mathMod_lt {x y : ℚ} (hy : 0 < y) : mathMod x y < y := by
  have h := Int.fract_lt_one (x / y)
  have heq : mathMod x y = y * Int.fract (x / y) := by
    unfold mathMod Int.fract
    field_simp
  rw [heq]
  calc y * Int.fract (x / y) < y * 1 := by
        exact mul_lt_mul_of_pos_left h hy
    _ = y := mul_one y

theorem mathMod_sub_int {x y : ℚ} : ∃ k : ℤ, mathMod x y = x - y * k :=
  ⟨⌊x / y⌋, rfl⟩

/-! ## Gradient progress mapper

`src/main.go`: inside the per-character loop of `rootCmd.Run`
(variant 1, lines 172–190) and of `main` (variant 2, lines 464–490),
progress is computed from the unit position and the total unit count,
then optionally inverted, then optionally quantized.  The three
computations are factored here exactly as they appear in the source. -/

/-- Base progress: `0.0` when `totalUnits <= 1`, else
`position / (totalUnits - 1)`. -/
def progressBase (position totalUnits : ℕ) : ℚ :=
  if 1 < totalUnits then (position : ℚ) / ((totalUnits : ℚ) - 1) else 0

/-- Source: `if invert { progress = 1.0 - progress }`. -/
def applyInvert (invert : Bool) (p : ℚ) : ℚ :=
  if invert then 1 - p else p

/-- Source: `if steps > 0 { progress = math.Round(progress*float64(steps)) / float64(steps) }`;
`steps` is a Go `int`, validated non-negative upstream. -/
def applySteps (steps : ℤ) (p : ℚ) : ℚ :=
  if 0 < steps then (goRound (p * (steps : ℚ)) : ℚ) / (steps : ℚ) else p

/-- The full per-unit progress computation of the rendering loops. -/
def progressFor (position totalUnits : ℕ) (invert : Bool) (steps : ℤ) : ℚ :=
  applySteps steps (applyInvert invert (progressBase position totalUnits))

/-! ## HCL blending with a hue-direction policy

`src/main.go` lines 17–51, `blendHCLWithDirection` (cobra variant).  The
source converts its two `colorful.Color` arguments to HCL coordinates
with the library call `c.Hcl()` and converts the blended coordinates
back with `colorful.Hcl`; those conversions live in the external
go-colorful library, so the blend is embedded here directly on the HCL
coordinate triples it manipulates.  Everything between the two
conversions is translated verbatim. -/

/-- An HCL coordinate triple: hue in degrees, chroma, luminance. -/
structure HclColor where
  h : ℚ
  c : ℚ
  l : ℚ
  deriving DecidableEq

/-- The `shortest` arm (also the `default` arm) of the hue-direction
switch: fold the raw difference by 360 when its magnitude exceeds 180. -/
def shortestFold (d : ℚ) : ℚ :=
  if 180 < d then d - 360 else if d < -180 then d + 360 else d

/-- The `switch hueDirection` statement of `blendHCLWithDirection`
computing `deltaH` from the two normalized hues. -/
def hueDelta (hueDirection : String) (h1 h2 : ℚ) : ℚ :=
  if hueDirection = "shortest" ∨ hueDirection = "short" ∨ hueDirection = "sh" then
    shortestFold (h2 - h1)
  else if hueDirection = "clockwise" ∨ hueDirection = "cw" then
    goMod (h2 - h1 + 360) 360
  else if hueDirection = "counter-clockwise" ∨ hueDirection = "counterclockwise" ∨
      hueDirection = "ccw" then
    -(goMod (h1 - h2 + 360) 360)
  else
    shortestFold (h2 - h1)

/-- Source: `h = math.Mod(h+360, 360)`, the hue normalization applied to both input
hues and to the blended hue. -/
def normalizeHue (h : ℚ) : ℚ :=
  goMod (h + 360) 360

/-- The body of `blendHCLWithDirection` on HCL coordinates: normalize hues, compute
the directional hue delta, interpolate hue (renormalized), chroma and
luminance linearly. -/
def blendHCLWithDirection (c1 c2 : HclColor) (t : ℚ) (hueDirection : String) : HclColor :=
  { h := goMod (normalizeHue c1.h +
        t * hueDelta hueDirection (normalizeHue c1.h) (normalizeHue c2.h) + 360) 360
    c := c1.c + t * (c2.c - c1.c)
    l := c1.l + t * (c2.l - c1.l) }

theorem normalizeHue_mem {h : ℚ} (hb : -360 < h) :
    0 ≤ normalizeHue h ∧ normalizeHue h < 360 := by
  have hx : (0:ℚ) ≤ h + 360 := by linarith
  have h360 : (0:ℚ) < 360 := by norm_num
  rw [normalizeHue, goMod_eq_mathMod hx h360]
  exact ⟨mathMod_nonneg h360, mathMod_lt h360⟩

theorem normalizeHue_congr (h : ℚ) : ∃ k : ℤ, normalizeHue h = h + 360 * k := by
  unfold normalizeHue goMod
  refine ⟨1 - goTrunc ((h + 360) / 360), by push_cast; ring⟩

theorem mathMod_congr (x y : ℚ) : ∃ k : ℤ, mathMod x y = x + y * k := by
  refine ⟨-⌊x / y⌋, ?_⟩
  unfold mathMod
  push_cast
  ring

theorem shortestFold_bounds {d : ℚ} (ha : -360 < d) (hb : d < 360) :
    -180 ≤ shortestFold d ∧ shortestFold d ≤ 180 := by
  unfold shortestFold
  split_ifs <;> constructor <;> linarith

theorem shortestFold_congr (d : ℚ) : ∃ k : ℤ, shortestFold d = d + 360 * k := by
  unfold shortestFold
  split_ifs
  · exact ⟨-1, by ring⟩
  · exact ⟨1, by ring⟩
  · exact ⟨0, by ring⟩

/-- Whatever the hue-direction string, the computed delta is congruent to
`h2 - h1` modulo 360 and lies strictly inside `(-360, 360)` when both
hues are normalized to `[0, 360)`. -/
theorem hueDelta_congr_bounds (dir : String) {h1 h2 : ℚ}
    (h1a : 0 ≤ h1) (h1b : h1 < 360) (h2a : 0 ≤ h2) (h2b : h2 < 360) :
    (∃ k : ℤ, hueDelta dir h1 h2 = (h2 - h1) + 360 * k) ∧
    -360 < hueDelta dir h1 h2 ∧ hueDelta dir h1 h2 < 360 := by
  have h360 : (0:ℚ) < 360 := by norm_num
  have hraw1 : (-360:ℚ) < h2 - h1 := by linarith
  have hraw2 : h2 - h1 < 360 := by linarith
  unfold hueDelta
  split_ifs
  · refine ⟨shortestFold_congr _, ?_⟩
    have := shortestFold_bounds hraw1 hraw2
    exact ⟨by linarith [this.1], by linarith [this.2]⟩
  · rw [goMod_eq_mathMod (by linarith) h360]
    refine ⟨?_, by linarith [mathMod_nonneg (x := h2 - h1 + 360) h360],
      mathMod_lt h360⟩
    obtain ⟨k, hk⟩ := mathMod_congr (h2 - h1 + 360) 360
    exact ⟨k + 1, by rw [hk]; push_cast; ring⟩
  · rw [goMod_eq_mathMod (by linarith) h360]
    refine ⟨?_, by linarith [mathMod_lt (x := h1 - h2 + 360) h360],
      by linarith [mathMod_nonneg (x := h1 - h2 + 360) h360]⟩
    obtain ⟨k, hk⟩ := mathMod_congr (h1 - h2 + 360) 360
    exact ⟨-k - 1, by rw [hk]; push_cast; ring⟩
  · refine ⟨shortestFold_congr _, ?_⟩
    have := shortestFold_bounds hraw1 hraw2
    exact ⟨by linarith [this.1], by linarith [this.2]⟩

/-- C3 (amended): for normalized hues the Shortest policy returns the raw
difference `h2 - h1` folded by adding or subtracting 360 when its
magnitude exceeds 180, and the result lies in the closed interval
`[-180, 180]` — so the sweep never exceeds 180 degrees, but the value
`-180` itself is attainable, hence the interval is not the half-open
`(-180, 180]`. -/
theorem hueDelta_shortest_fold {h1 h2 : ℚ}
    (h1a : 0 ≤ h1) (h1b : h1 < 360) (h2a : 0 ≤ h2) (h2b : h2 < 360) :
    hueDelta "shortest" h1 h2 = shortestFold (h2 - h1) ∧
    -180 ≤ hueDelta "shortest" h1 h2 ∧ hueDelta "shortest" h1 h2 ≤ 180 := by
  have heq : hueDelta "shortest" h1 h2 = shortestFold (h2 - h1) := by
    simp [hueDelta]
  refine ⟨heq, ?_⟩
  rw [heq]
  exact shortestFold_bounds (by linarith) (by linarith)

theorem hueDelta_shortest_fold_witness :
    hueDelta "shortest" 10 350 = shortestFold (350 - 10) ∧
    -180 ≤ hueDelta "shortest" 10 350 ∧ hueDelta "shortest" 10 350 ≤ 180 :=
  hueDelta_shortest_fold (by norm_num) (by norm_num) (by norm_num) (by norm_num)

/-- C3 (counterexample): at normalized hues `h1 = 180`, `h2 = 0` the
Shortest-policy delta is exactly `-180`, which does not lie in the
half-open interval `(-180, 180]` the claim asserts. -/
theorem hueDelta_shortest_at_minus180 :
    hueDelta "shortest" 180 0 = -180 ∧ ¬ (-180 < hueDelta "shortest" 180 0) := by
  have heq : hueDelta "shortest" 180 0 = -180 := by
    simp [hueDelta, shortestFold]
  exact ⟨heq, by rw [heq]; norm_num⟩

/-- C4: for normalized hues, the Clockwise delta is
`((h2 - h1) + 360) mod 360` and is non-negative, and the
CounterClockwise delta is `-(((h1 - h2) + 360) mod 360)` and is
non-positive. -/
theorem hueDelta_cw_ccw {h1 h2 : ℚ}
    (h1a : 0 ≤ h1) (h1b : h1 < 360) (h2a : 0 ≤ h2) (h2b : h2 < 360) :
    (hueDelta "clockwise" h1 h2 = mathMod (h2 - h1 + 360) 360 ∧
      0 ≤ hueDelta "clockwise" h1 h2) ∧
    (hueDelta "counter-clockwise" h1 h2 = -(mathMod (h1 - h2 + 360) 360) ∧
      hueDelta "counter-clockwise" h1 h2 ≤ 0) := by
  have h360 : (0:ℚ) < 360 := by norm_num
  have hcw : hueDelta "clockwise" h1 h2 = goMod (h2 - h1 + 360) 360 := by
    simp [hueDelta]
  have hccw : hueDelta "counter-clockwise" h1 h2 = -(goMod (h1 - h2 + 360) 360) := by
    simp [hueDelta]
  rw [hcw, hccw, goMod_eq_mathMod (by linarith) h360,
    goMod_eq_mathMod (by linarith) h360]
  exact ⟨⟨rfl, mathMod_nonneg h360⟩, ⟨rfl, by linarith [mathMod_nonneg (x := h1 - h2 + 360) h360]⟩⟩

theorem goRound_near (q : ℚ) : |(goRound q : ℚ) - q| ≤ 1 / 2 := by
  unfold goRound
  split_ifs
  · rw [abs_le]
    exact ⟨by linarith [Int.lt_floor_add_one (q + 1/2)],
      by linarith [Int.floor_le (q + 1/2)]⟩
  · rw [abs_le]
    exact ⟨by linarith [Int.le_ceil (q - 1/2)],
      by linarith [Int.ceil_lt_add_one (q - 1/2)]⟩

theorem goRound_mem_of_mem {q : ℚ} {k : ℤ} (hq : 0 ≤ q) (hk : q ≤ (k : ℚ)) :
    0 ≤ goRound q ∧ goRound q ≤ k := by
  unfold goRound
  rw [if_pos hq]
  constructor
  · exact Int.le_floor.mpr (by push_cast; linarith)
  · have h1 : (⌊q + 1/2⌋ : ℚ) < (k : ℚ) + 1 := by
      calc (⌊q + 1/2⌋ : ℚ) ≤ q + 1/2 := Int.floor_le _
        _ < (k : ℚ) + 1 := by linarith
    have h2 : ⌊q + 1/2⌋ < k + 1 := by exact_mod_cast h1
    omega

/-- C1: the per-unit base progress is 0 whenever `totalUnits ≤ 1`, and
otherwise equals `position / (totalUnits - 1)`, so position 0 maps to
exactly 0 and position `totalUnits - 1` maps to exactly 1. -/
theorem progressBase_spec (position totalUnits : ℕ) :
    (totalUnits ≤ 1 → progressBase position totalUnits = 0) ∧
    (1 < totalUnits →
      progressBase position totalUnits = (position : ℚ) / ((totalUnits : ℚ) - 1) ∧
      progressBase 0 totalUnits = 0 ∧
      progressBase (totalUnits - 1) totalUnits = 1) := by
  constructor
  · intro hle
    rw [progressBase, if_neg (by omega)]
  · intro hlt
    have hden : ((totalUnits : ℚ) - 1) ≠ 0 := by
      have : (1 : ℚ) < (totalUnits : ℚ) := by exact_mod_cast hlt
      linarith
    refine ⟨by rw [progressBase, if_pos hlt], ?_, ?_⟩
    · rw [progressBase, if_pos hlt]
      simp
    · rw [progressBase, if_pos hlt]
      have hcast : ((totalUnits - 1 : ℕ) : ℚ) = (totalUnits : ℚ) - 1 := by
        have : (1 : ℕ) ≤ totalUnits := by omega
        push_cast [this]
        ring
      rw [hcast]
      exact div_self hden

theorem progressBase_spec_witness :
    (5 ≤ 1 → progressBase 3 5 = 0) ∧
    (1 < 5 →
      progressBase 3 5 = (3 : ℚ) / ((5 : ℚ) - 1) ∧
      progressBase 0 5 = 0 ∧
      progressBase (5 - 1) 5 = 1) :=
  progressBase_spec 3 5

/-- C2: when `steps = k > 0` the quantized progress equals
`round(p * k) / k`; it is within `1 / (2k)` of `p` (the nearest multiple
of `1/k`), and for `p ∈ [0, 1]` it is one of the `k + 1` levels
`i / k`, `0 ≤ i ≤ k`; when `k = 0` the progress is unchanged; and
`steps = 3` at raw progress `1/5` quantizes to `1/3`. -/
theorem applySteps_spec (p : ℚ) (k : ℤ) :
    (0 < k → applySteps k p = (goRound (p * (k : ℚ)) : ℚ) / (k : ℚ) ∧
      |applySteps k p - p| ≤ 1 / (2 * (k : ℚ)) ∧
      (0 ≤ p → p ≤ 1 → ∃ i : ℕ, (i : ℤ) ≤ k ∧ applySteps k p = (i : ℚ) / (k : ℚ))) ∧
    (k = 0 → applySteps k p = p) ∧
    applySteps 3 (1 / 5) = 1 / 3 := by
  refine ⟨?_, ?_, ?_⟩
  · intro hk
    have hkq : (0 : ℚ) < (k : ℚ) := by exact_mod_cast hk
    have heq : applySteps k p = (goRound (p * (k : ℚ)) : ℚ) / (k : ℚ) := by
      rw [applySteps, if_pos hk]
    refine ⟨heq, ?_, ?_⟩
    · have key : applySteps k p - p = ((goRound (p * (k:ℚ)) : ℚ) - p * (k:ℚ)) / (k:ℚ) := by
        rw [heq]
        field_simp
        ring
      rw [key, abs_div, abs_of_pos hkq,
        show (1:ℚ) / (2 * (k:ℚ)) = (1/2 : ℚ) / (k:ℚ) by rw [div_div]]
      exact div_le_div_of_nonneg_right (goRound_near _) hkq.le
    · intro hp0 hp1
      have hq0 : 0 ≤ p * (k : ℚ) := mul_nonneg hp0 hkq.le
      have hqk : p * (k : ℚ) ≤ (k : ℚ) := by
        calc p * (k : ℚ) ≤ 1 * (k : ℚ) := mul_le_mul_of_nonneg_right hp1 hkq.le
          _ = (k : ℚ) := one_mul _
      obtain ⟨hge, hle⟩ := goRound_mem_of_mem hq0 hqk
      refine ⟨(goRound (p * (k : ℚ))).toNat, by omega, ?_⟩
      rw [heq]
      congr 1
      exact_mod_cast (Int.toNat_of_nonneg hge).symm
  · intro hk
    rw [applySteps, if_neg (by omega)]
  · have h1 : goRound ((1/5 : ℚ) * ((3 : ℤ) : ℚ)) = 1 := by
      unfold goRound
      rw [if_pos (by norm_num)]
      rw [show (1/5 : ℚ) * ((3 : ℤ) : ℚ) + 1/2 = 11/10 by push_cast; norm_num]
      rw [Int.floor_eq_iff]
      norm_num
    rw [applySteps, if_pos (by norm_num), h1]
    norm_num

theorem hueDelta_cw_ccw_witness :
    (hueDelta "clockwise" 10 350 = mathMod (350 - 10 + 360) 360 ∧
      0 ≤ hueDelta "clockwise" 10 350) ∧
    (hueDelta "counter-clockwise" 10 350 = -(mathMod (10 - 350 + 360) 360) ∧
      hueDelta "counter-clockwise" 10 350 ≤ 0) :=
  hueDelta_cw_ccw (by norm_num) (by norm_num) (by norm_num) (by norm_num)

theorem applySteps_spec_witness :
    (0 < (3:ℤ) → applySteps 3 (1/5) = (goRound ((1/5 : ℚ) * ((3:ℤ) : ℚ)) : ℚ) / ((3:ℤ) : ℚ) ∧
      |applySteps 3 (1/5) - 1/5| ≤ 1 / (2 * ((3:ℤ) : ℚ)) ∧
      (0 ≤ (1/5 : ℚ) → (1/5 : ℚ) ≤ 1 →
        ∃ i : ℕ, (i : ℤ) ≤ 3 ∧ applySteps 3 (1/5) = (i : ℚ) / ((3:ℤ) : ℚ))) ∧
    ((3:ℤ) = 0 → applySteps 3 (1/5) = 1/5) ∧
    applySteps 3 (1 / 5) = 1 / 3 :=
  applySteps_spec (1/5) 3

/-! ## Hex parsing and RGB interpolation (minimal variant)

`src/main.go`, third variant: `hexToRGB` checks that the color literal
has byte length 7 and starts with `#`, then parses each two-character
channel slice with `strconv.ParseInt(_, 16, 0)`; `getGradientColor`
interpolates each channel linearly, rounds, and clamps to `[0, 255]`.
Characters are modelled by their code points (the hex literals of
interest are ASCII, where Go's byte length 7 coincides with seven
characters). -/

/-- Value of one hex digit, by ASCII code point: `0`–`9` (48–57),
`a`–`f` (97–102), `A`–`F` (65–70), as `strconv.ParseInt` base 16
accepts. -/
def hexDigitVal (c : Char) : Option ℕ :=
  if 48 ≤ c.toNat ∧ c.toNat ≤ 57 then some (c.toNat - 48)
  else if 97 ≤ c.toNat ∧ c.toNat ≤ 102 then some (c.toNat - 87)
  else if 65 ≤ c.toNat ∧ c.toNat ≤ 70 then some (c.toNat - 55)
  else none

/-- Embedding of `strconv.ParseInt(s, 16, 0)` applied to a two-byte channel slice: an
optional leading sign followed by hex digits. -/
def parseHexPair (a b : Char) : Option ℤ :=
  if a = '-' then (hexDigitVal b).map (fun v => -(v : ℤ))
  else if a = '+' then (hexDigitVal b).map (fun v => ((v : ℕ) : ℤ))
  else
    match hexDigitVal a, hexDigitVal b with
    | some x, some y => some (((16 * x + y : ℕ) : ℤ))
    | _, _ => none

/-- The shape test of `hexToRGB`:
`len(hexColor) != 7 || hexColor[0] != '#'` rejects, otherwise the six
channel characters are exposed. -/
def splitHexBody : List Char → Option (Char × Char × Char × Char × Char × Char)
  | ['#', r1, r2, g1, g2, b1, b2] => some (r1, r2, g1, g2, b1, b2)
  | _ => none

/-- The body of `hexToRGB`: length-7 `#RRGGBB` check, then the three channel
parses. -/
def hexToRGB (s : String) : Option (ℤ × ℤ × ℤ) :=
  match splitHexBody s.data with
  | some (r1, r2, g1, g2, b1, b2) =>
    match parseHexPair r1 r2, parseHexPair g1 g2, parseHexPair b1 b2 with
    | some r, some g, some b => some (r, g, b)
    | _, _, _ => none
  | none => none

/-- A color literal valid in the spec's sense: `#` followed by exactly
six hex digits (no sign tolerance). -/
def validHexColor (s : String) : Bool :=
  match splitHexBody s.data with
  | some (c1, c2, c3, c4, c5, c6) =>
    (hexDigitVal c1).isSome && (hexDigitVal c2).isSome && (hexDigitVal c3).isSome &&
      (hexDigitVal c4).isSome && (hexDigitVal c5).isSome && (hexDigitVal c6).isSome
  | none => false

/-- One channel of the minimal variant's interpolation:
`int(math.Round(float64(start) + (float64(end)-float64(start))*progress))`. -/
def interpChannel (s e : ℤ) (progress : ℚ) : ℤ :=
  goRound ((s : ℚ) + ((e : ℚ) - (s : ℚ)) * progress)

/-- Source: `int(math.Max(0, math.Min(255, float64(v))))`. -/
def clamp255 (v : ℤ) : ℤ :=
  max 0 (min 255 v)

/-- The body of `getGradientColor` of the minimal variant: parse both endpoints,
interpolate each channel, clamp.  The source formats the resulting
triple into the escape `"\x1b[38;2;R;G;Bm"`; the embedding returns the
triple that escape carries. -/
def getGradientColor (progress : ℚ) (startHex endHex : String) : Option (ℤ × ℤ × ℤ) :=
  match hexToRGB startHex, hexToRGB endHex with
  | some (sr, sg, sb), some (er, eg, eb) =>
    some (clamp255 (interpChannel sr er progress),
          clamp255 (interpChannel sg eg progress),
          clamp255 (interpChannel sb eb progress))
  | _, _ => none

theorem hexDigitVal_le {c : Char} {v : ℕ} (h : hexDigitVal c = some v) : v ≤ 15 := by
  unfold hexDigitVal at h
  split_ifs at h with h1 h2 h3 <;> simp at h <;> omega

theorem hexDigitVal_not_sign {c : Char} {v : ℕ} (h : hexDigitVal c = some v) :
    c ≠ '-' ∧ c ≠ '+' := by
  constructor <;> rintro rfl <;> simp [hexDigitVal] at h

theorem parseHexPair_digits {a b : Char} {x y : ℕ}
    (ha : hexDigitVal a = some x) (hb : hexDigitVal b = some y) :
    parseHexPair a b = some (((16 * x + y : ℕ) : ℤ)) := by
  obtain ⟨hm, hp⟩ := hexDigitVal_not_sign ha
  rw [parseHexPair, if_neg hm, if_neg hp, ha, hb]

theorem parseHexPair_bounds {a b : Char} {x y : ℕ}
    (ha : hexDigitVal a = some x) (hb : hexDigitVal b = some y) :
    (0 : ℤ) ≤ ((16 * x + y : ℕ) : ℤ) ∧ ((16 * x + y : ℕ) : ℤ) ≤ 255 := by
  have hx := hexDigitVal_le ha
  have hy := hexDigitVal_le hb
  constructor <;> [positivity; exact_mod_cast (by omega : (16 * x + y : ℕ) ≤ 255)]

/-- A spec-valid color literal parses, and its three channels lie in
`[0, 255]`. -/
theorem hexToRGB_of_valid {s : String} (h : validHexColor s = true) :
    ∃ r g b : ℤ, hexToRGB s = some (r, g, b) ∧
      0 ≤ r ∧ r ≤ 255 ∧ 0 ≤ g ∧ g ≤ 255 ∧ 0 ≤ b ∧ b ≤ 255 := by
  unfold validHexColor at h
  unfold hexToRGB
  cases hsp : splitHexBody s.data with
  | none => rw [hsp] at h; simp at h
  | some t =>
    obtain ⟨r1, r2, g1, g2, b1, b2⟩ := t
    rw [hsp] at h
    simp only [Bool.and_eq_true, Option.isSome_iff_exists] at h
    obtain ⟨⟨⟨⟨⟨⟨x1, hx1⟩, ⟨x2, hx2⟩⟩, ⟨x3, hx3⟩⟩, ⟨x4, hx4⟩⟩, ⟨x5, hx5⟩⟩, ⟨x6, hx6⟩⟩ := h
    show ∃ r g b : ℤ,
      (match parseHexPair r1 r2, parseHexPair g1 g2, parseHexPair b1 b2 with
        | some r, some g, some b => some (r, g, b)
        | _, _, _ => none) = some (r, g, b) ∧
      0 ≤ r ∧ r ≤ 255 ∧ 0 ≤ g ∧ g ≤ 255 ∧ 0 ≤ b ∧ b ≤ 255
    rw [parseHexPair_digits hx1 hx2, parseHexPair_digits hx3 hx4,
      parseHexPair_digits hx5 hx6]
    obtain ⟨hr1, hr2⟩ := parseHexPair_bounds hx1 hx2
    obtain ⟨hg1, hg2⟩ := parseHexPair_bounds hx3 hx4
    obtain ⟨hb1, hb2⟩ := parseHexPair_bounds hx5 hx6
    exact ⟨_, _, _, rfl, hr1, hr2, hg1, hg2, hb1, hb2⟩

theorem goRound_intCast (n : ℤ) : goRound ((n : ℚ)) = n := by
  unfold goRound
  split_ifs
  · rw [Int.floor_eq_iff]
    constructor <;> linarith
  · rw [Int.ceil_eq_iff]
    constructor <;> linarith

theorem interpChannel_zero (s e : ℤ) : interpChannel s e 0 = s := by
  unfold interpChannel
  rw [mul_zero, add_zero, goRound_intCast]

theorem interpChannel_one (s e : ℤ) : interpChannel s e 1 = e := by
  unfold interpChannel
  rw [mul_one, show (s:ℚ) + ((e:ℚ) - (s:ℚ)) = (e:ℚ) by ring, goRound_intCast]

theorem clamp255_eq_self {v : ℤ} (h0 : 0 ≤ v) (h1 : v ≤ 255) : clamp255 v = v := by
  rw [clamp255, min_eq_right h1, max_eq_right h0]

theorem clamp255_mem (v : ℤ) : 0 ≤ clamp255 v ∧ clamp255 v ≤ 255 :=
  ⟨le_max_left 0 _, max_le (by norm_num) (min_le_left 255 v)⟩

theorem normalizeHue_eq_self {h : ℚ} (h0 : 0 ≤ h) (h1 : h < 360) :
    normalizeHue h = h := by
  rw [normalizeHue, goMod_eq_mathMod (by linarith) (by norm_num)]
  unfold mathMod
  have hfl : ⌊(h + 360) / 360⌋ = 1 := by
    rw [Int.floor_eq_iff]
    constructor
    · rw [le_div_iff₀ (by norm_num : (0:ℚ) < 360)]
      push_cast
      linarith
    · rw [div_lt_iff₀ (by norm_num : (0:ℚ) < 360)]
      push_cast
      linarith
  rw [hfl]
  push_cast
  ring

/-- At `t = 0` the HCL blend reproduces the start triple: chroma and
luminance exactly, hue up to the normalization congruence modulo 360
(the same hue angle). -/
theorem blend_at_zero (c1 c2 : HclColor) (dir : String) (hc1 : -360 < c1.h) :
    (blendHCLWithDirection c1 c2 0 dir).c = c1.c ∧
    (blendHCLWithDirection c1 c2 0 dir).l = c1.l ∧
    ∃ k : ℤ, (blendHCLWithDirection c1 c2 0 dir).h = c1.h + 360 * k := by
  obtain ⟨hn0, hn1⟩ := normalizeHue_mem hc1
  obtain ⟨k, hk⟩ := normalizeHue_congr c1.h
  refine ⟨by simp [blendHCLWithDirection], by simp [blendHCLWithDirection], k, ?_⟩
  show goMod (normalizeHue c1.h +
      0 * hueDelta dir (normalizeHue c1.h) (normalizeHue c2.h) + 360) 360 = _
  rw [zero_mul, add_zero,
    show goMod (normalizeHue c1.h + 360) 360 = normalizeHue (normalizeHue c1.h) from rfl,
    normalizeHue_eq_self hn0 hn1, hk]

/-- At `t = 1` the HCL blend reproduces the end triple: chroma and
luminance exactly, hue up to congruence modulo 360. -/
theorem blend_at_one (c1 c2 : HclColor) (dir : String)
    (hc1 : -360 < c1.h) (hc2 : -360 < c2.h) :
    (blendHCLWithDirection c1 c2 1 dir).c = c2.c ∧
    (blendHCLWithDirection c1 c2 1 dir).l = c2.l ∧
    ∃ k : ℤ, (blendHCLWithDirection c1 c2 1 dir).h = c2.h + 360 * k := by
  obtain ⟨h10, h11⟩ := normalizeHue_mem hc1
  obtain ⟨h20, h21⟩ := normalizeHue_mem hc2
  obtain ⟨k2, hk2⟩ := normalizeHue_congr c2.h
  obtain ⟨⟨kd, hkd⟩, hdlo, hdhi⟩ := hueDelta_congr_bounds dir h10 h11 h20 h21
  refine ⟨by simp [blendHCLWithDirection], by simp [blendHCLWithDirection], ?_⟩
  show ∃ k : ℤ, goMod (normalizeHue c1.h +
      1 * hueDelta dir (normalizeHue c1.h) (normalizeHue c2.h) + 360) 360 = c2.h + 360 * k
  rw [one_mul, goMod_eq_mathMod (by linarith) (by norm_num)]
  obtain ⟨m, hm⟩ := mathMod_congr
    (normalizeHue c1.h + hueDelta dir (normalizeHue c1.h) (normalizeHue c2.h) + 360) 360
  refine ⟨k2 + kd + m + 1, ?_⟩
  rw [hm, hkd, hk2]
  push_cast
  ring

/-- C5: for valid hex endpoints, interpolating at progress 0 returns the
start color and at progress 1 the end color — exactly, for the minimal
variant's RGB `getGradientColor`; and for the HCL blend under every
hue-direction policy, chroma and luminance are reproduced exactly and
the hue up to the modulo-360 normalization (the same hue angle, hence
the same color within the final rounding tolerance).  The hue
hypotheses `-360 < h` hold for every hue the library's `Hcl()`
conversion produces (degrees of an `atan2`). -/
theorem interpolate_endpoints (c1 c2 : HclColor) (dir : String)
    {s e : String} {sr sg sb er eg eb : ℤ}
    (hs : validHexColor s = true) (he : validHexColor e = true)
    (hsv : hexToRGB s = some (sr, sg, sb)) (hev : hexToRGB e = some (er, eg, eb))
    (hc1 : -360 < c1.h) (hc2 : -360 < c2.h) :
    getGradientColor 0 s e = some (sr, sg, sb) ∧
    getGradientColor 1 s e = some (er, eg, eb) ∧
    ((blendHCLWithDirection c1 c2 0 dir).c = c1.c ∧
      (blendHCLWithDirection c1 c2 0 dir).l = c1.l ∧
      ∃ k : ℤ, (blendHCLWithDirection c1 c2 0 dir).h = c1.h + 360 * k) ∧
    ((blendHCLWithDirection c1 c2 1 dir).c = c2.c ∧
      (blendHCLWithDirection c1 c2 1 dir).l = c2.l ∧
      ∃ k : ℤ, (blendHCLWithDirection c1 c2 1 dir).h = c2.h + 360 * k) := by
  obtain ⟨r₁, g₁, b₁, hv₁, hb₁⟩ := hexToRGB_of_valid hs
  obtain ⟨r₂, g₂, b₂, hv₂, hb₂⟩ := hexToRGB_of_valid he
  rw [hsv] at hv₁
  rw [hev] at hv₂
  obtain ⟨rfl, rfl, rfl⟩ : sr = r₁ ∧ sg = g₁ ∧ sb = b₁ := by
    injection hv₁ with h'
    refine ⟨congrArg Prod.fst h', ?_, ?_⟩
    · exact congrArg (fun p => p.2.1) h'
    · exact congrArg (fun p => p.2.2) h'
  obtain ⟨rfl, rfl, rfl⟩ : er = r₂ ∧ eg = g₂ ∧ eb = b₂ := by
    injection hv₂ with h'
    refine ⟨congrArg Prod.fst h', ?_, ?_⟩
    · exact congrArg (fun p => p.2.1) h'
    · exact congrArg (fun p => p.2.2) h'
  refine ⟨?_, ?_, blend_at_zero c1 c2 dir hc1, blend_at_one c1 c2 dir hc1 hc2⟩
  · rw [getGradientColor, hsv, hev]
    show some (clamp255 (interpChannel sr er 0), clamp255 (interpChannel sg eg 0),
        clamp255 (interpChannel sb eb 0)) = some (sr, sg, sb)
    rw [interpChannel_zero, interpChannel_zero, interpChannel_zero,
      clamp255_eq_self hb₁.1 hb₁.2.1,
      clamp255_eq_self hb₁.2.2.1 hb₁.2.2.2.1,
      clamp255_eq_self hb₁.2.2.2.2.1 hb₁.2.2.2.2.2]
  · rw [getGradientColor, hsv, hev]
    show some (clamp255 (interpChannel sr er 1), clamp255 (interpChannel sg eg 1),
        clamp255 (interpChannel sb eb 1)) = some (er, eg, eb)
    rw [interpChannel_one, interpChannel_one, interpChannel_one,
      clamp255_eq_self hb₂.1 hb₂.2.1,
      clamp255_eq_self hb₂.2.2.1 hb₂.2.2.2.1,
      clamp255_eq_self hb₂.2.2.2.2.1 hb₂.2.2.2.2.2]

theorem interpolate_endpoints_witness :
    getGradientColor 0 "#102030" "#405060" = some (16, 32, 48) ∧
    getGradientColor 1 "#102030" "#405060" = some (64, 80, 96) ∧
    ((blendHCLWithDirection ⟨10, 2, 3⟩ ⟨350, 4, 5⟩ 0 "clockwise").c = (2 : ℚ) ∧
      (blendHCLWithDirection ⟨10, 2, 3⟩ ⟨350, 4, 5⟩ 0 "clockwise").l = (3 : ℚ) ∧
      ∃ k : ℤ, (blendHCLWithDirection ⟨10, 2, 3⟩ ⟨350, 4, 5⟩ 0 "clockwise").h =
        10 + 360 * k) ∧
    ((blendHCLWithDirection ⟨10, 2, 3⟩ ⟨350, 4, 5⟩ 1 "clockwise").c = (4 : ℚ) ∧
      (blendHCLWithDirection ⟨10, 2, 3⟩ ⟨350, 4, 5⟩ 1 "clockwise").l = (5 : ℚ) ∧
      ∃ k : ℤ, (blendHCLWithDirection ⟨10, 2, 3⟩ ⟨350, 4, 5⟩ 1 "clockwise").h =
        350 + 360 * k) :=
  interpolate_endpoints ⟨10, 2, 3⟩ ⟨350, 4, 5⟩ "clockwise"
    (by decide) (by decide) (by decide) (by decide) (by norm_num) (by norm_num)

/-- Modelled from the spec: the library call
`interpolated.Clamped().RGB255()` used by the other two variants (the
go-colorful source is not in the repository) — "values must be clamped,
never wrapped": `Clamped` clamps each continuous channel into `[0, 1]`
and `RGB255` scales to the byte range, rounding. -/
def clampedRGB255 (v : ℚ) : ℤ :=
  ⌊max 0 (min 1 v) * 255 + 1/2⌋

/-- C6: every output channel of the minimal variant's
`getGradientColor` lies in `[0, 255]` for every progress value,
including progress outside `[0, 1]` — the clamp, not wraparound,
enforces the range; and the modelled library clamp used by the other
variants lands in `[0, 255]` from any continuous channel value. -/
theorem getGradientColor_channels_clamped (progress : ℚ) (s e : String) (r g b : ℤ)
    (h : getGradientColor progress s e = some (r, g, b)) :
    (0 ≤ r ∧ r ≤ 255) ∧ (0 ≤ g ∧ g ≤ 255) ∧ (0 ≤ b ∧ b ≤ 255) ∧
    ∀ v : ℚ, 0 ≤ clampedRGB255 v ∧ clampedRGB255 v ≤ 255 := by
  have hlib : ∀ v : ℚ, 0 ≤ clampedRGB255 v ∧ clampedRGB255 v ≤ 255 := by
    intro v
    unfold clampedRGB255
    constructor
    · refine Int.le_floor.mpr ?_
      have h0 : (0:ℚ) ≤ max 0 (min 1 v) := le_max_left 0 _
      push_cast
      nlinarith
    · have h1 : max 0 (min 1 v) ≤ 1 := max_le (by norm_num) (min_le_left 1 v)
      have h0 : (0:ℚ) ≤ max 0 (min 1 v) := le_max_left 0 _
      have : (⌊max 0 (min 1 v) * 255 + 1/2⌋ : ℚ) ≤ max 0 (min 1 v) * 255 + 1/2 :=
        Int.floor_le _
      have hlt : (⌊max 0 (min 1 v) * 255 + 1/2⌋ : ℚ) < 256 := by nlinarith
      have : ⌊max 0 (min 1 v) * 255 + 1/2⌋ < 256 := by exact_mod_cast hlt
      omega
  unfold getGradientColor at h
  cases hs : hexToRGB s with
  | none => rw [hs] at h; exact absurd h (by simp)
  | some ts =>
    cases he : hexToRGB e with
    | none =>
      rw [hs, he] at h
      obtain ⟨sr, sg, sb⟩ := ts
      exact absurd h (by simp)
    | some te =>
      obtain ⟨sr, sg, sb⟩ := ts
      obtain ⟨er, eg, eb⟩ := te
      rw [hs, he] at h
      have h' : (clamp255 (interpChannel sr er progress),
          clamp255 (interpChannel sg eg progress),
          clamp255 (interpChannel sb eb progress)) = (r, g, b) := by
        injection h
      obtain ⟨rfl, rfl, rfl⟩ : clamp255 (interpChannel sr er progress) = r ∧
          clamp255 (interpChannel sg eg progress) = g ∧
          clamp255 (interpChannel sb eb progress) = b := by
        refine ⟨congrArg Prod.fst h', ?_, ?_⟩
        · exact congrArg (fun p => p.2.1) h'
        · exact congrArg (fun p => p.2.2) h'
      exact ⟨clamp255_mem _, clamp255_mem _, clamp255_mem _, hlib⟩

theorem getGradientColor_channels_clamped_witness :
    ((0:ℤ) ≤ 255 ∧ (255:ℤ) ≤ 255) ∧ ((0:ℤ) ≤ 255 ∧ (255:ℤ) ≤ 255) ∧
    ((0:ℤ) ≤ 255 ∧ (255:ℤ) ≤ 255) ∧
    ∀ v : ℚ, 0 ≤ clampedRGB255 v ∧ clampedRGB255 v ≤ 255 :=
  getGradientColor_channels_clamped 5 "#000000" "#FFFFFF" 255 255 255 (by
    have h0 : hexToRGB "#000000" = some (0, 0, 0) := by decide
    have hF : hexToRGB "#FFFFFF" = some (255, 255, 255) := by decide
    have h1 : interpChannel 0 255 5 = 1275 := by
      unfold interpChannel goRound
      rw [if_pos (by push_cast; norm_num)]
      rw [show ((0:ℤ):ℚ) + (((255:ℤ):ℚ) - ((0:ℤ):ℚ)) * 5 + 1/2 = 2551/2 by
        push_cast; norm_num]
      rw [Int.floor_eq_iff]
      norm_num
    have hch : clamp255 (interpChannel 0 255 5) = 255 := by
      rw [h1]; decide
    rw [getGradientColor, h0, hF]
    show some (clamp255 (interpChannel 0 255 5), clamp255 (interpChannel 0 255 5),
        clamp255 (interpChannel 0 255 5)) = some (255, 255, 255)
    rw [hch])

/-! ## The rendering loop of `rootCmd.Run`

`src/main.go` lines 127–206 (cobra variant).  The loop is embedded as a
pure function from the validated configuration and the decoded input
lines (lists of code points, as Go's `[]rune`) to the byte stream
written to stdout.  The color computation `getGradientColor` — whose
error branch is unreachable after flag validation — is abstracted as a
function `colorOf` from the progress value to the color part of the
escape (`"38;2;R;G;Bm"`); every theorem below holds for an arbitrary
`colorOf`, so nothing about the emitted structure depends on it. -/

/-- The per-run configuration the loop reads (already validated). -/
structure RenderConfig where
  gradientDirection : String
  invert : Bool
  steps : ℤ

/-- Total gradient units: the character count for horizontal direction,
the line count otherwise. -/
def totalGradientUnits (cfg : RenderConfig) (lines : List (List Char)) : ℕ :=
  if cfg.gradientDirection = "horizontal" then (lines.map List.length).sum
  else lines.length

/-- Per-unit progress as the loop computes it: guard `totalUnits > 1`,
then inversion, then quantization. -/
def unitProgress (cfg : RenderConfig) (totalUnits pos : ℕ) : ℚ :=
  progressFor pos totalUnits cfg.invert cfg.steps

/-- The inner `for _, char := range line` loop: emits
`"\x1b[" ++ colorPart ++ char` per character, threading the horizontal
character counter (which only advances in horizontal direction). -/
def renderChars (cfg : RenderConfig) (colorOf : ℚ → String)
    (totalUnits lineIndex : ℕ) : ℕ → List Char → String × ℕ
  | cc, [] => ("", cc)
  | cc, ch :: rest =>
    let pos := if cfg.gradientDirection = "horizontal" then cc else lineIndex
    let cc' := if cfg.gradientDirection = "horizontal" then cc + 1 else cc
    let out := "\x1b[" ++ colorOf (unitProgress cfg totalUnits pos) ++ String.singleton ch
    let tail := renderChars cfg colorOf totalUnits lineIndex cc' rest
    (out ++ tail.1, tail.2)

/-- The outer `for lineIndex, line := range lines` loop: the special
vertical empty-line branch emits one color escape followed directly by
a newline; every other line renders its characters and then a plain
newline. -/
def renderLines (cfg : RenderConfig) (colorOf : ℚ → String) (totalUnits : ℕ) :
    ℕ → ℕ → List (List Char) → String
  | _, _, [] => ""
  | lineIndex, cc, line :: rest =>
    if cfg.gradientDirection = "vertical" ∧ line.length = 0 ∧ 1 < totalUnits then
      "\x1b[" ++ colorOf (unitProgress cfg totalUnits lineIndex) ++ "\n" ++
        renderLines cfg colorOf totalUnits (lineIndex + 1) cc rest
    else
      (renderChars cfg colorOf totalUnits lineIndex cc line).1 ++ "\n" ++
        renderLines cfg colorOf totalUnits (lineIndex + 1)
          (renderChars cfg colorOf totalUnits lineIndex cc line).2 rest

/-- The whole `Run` body after input reading: empty input prints only
the reset; horizontal input with zero total characters prints one reset
per line and returns early; otherwise the line loop runs and a single
terminating reset follows. -/
def renderRun (cfg : RenderConfig) (colorOf : ℚ → String)
    (lines : List (List Char)) : String :=
  if lines.length = 0 then "\x1b[0m\n"
  else if cfg.gradientDirection = "horizontal" ∧ totalGradientUnits cfg lines = 0 then
    String.join (lines.map (fun _ => "\x1b[0m\n"))
  else
    renderLines cfg colorOf (totalGradientUnits cfg lines) 0 0 lines ++ "\x1b[0m\n"

theorem join_cons_str (a : String) (l : List String) :
    String.join (a :: l) = a ++ String.join l := by
  have hfold : ∀ (l : List String) (init : String),
      l.foldl (· ++ ·) init = init ++ String.join l := by
    intro l
    induction l with
    | nil => intro init; simp [String.join]
    | cons b t ih =>
      intro init
      rw [List.foldl_cons, ih (init ++ b),
        show String.join (b :: t) = t.foldl (· ++ ·) ("" ++ b) from rfl,
        ih ("" ++ b), String.empty_append, String.append_assoc]
  rw [show String.join (a :: l) = l.foldl (· ++ ·) ("" ++ a) from rfl,
    hfold l ("" ++ a), String.empty_append]

theorem join_replicate_ends_with_reset (n : ℕ) (hn : n ≠ 0) :
    ∃ s : String, String.join (List.replicate n "\x1b[0m\n") = s ++ "\x1b[0m\n" := by
  induction n with
  | zero => exact absurd rfl hn
  | succ m ih =>
    rw [List.replicate_succ, join_cons_str]
    cases m with
    | zero =>
      refine ⟨"", ?_⟩
      rw [String.empty_append]
      simp [String.join]
    | succ m' =>
      obtain ⟨s, hs⟩ := ih (by omega)
      exact ⟨"\x1b[0m\n" ++ s, by rw [hs, String.append_assoc]⟩

/-- C8: in vertical direction with more than one gradient unit, a
zero-character line is rendered as exactly one color escape followed
directly by a line break with no character payload, the color is taken
at the line's own index (the line consumes one gradient unit: the
recursion continues at `lineIndex + 1`), and that progress value is
`lineIndex / (totalUnits - 1)` fed through inversion and
quantization. -/
theorem vertical_empty_line_render (cfg : RenderConfig) (colorOf : ℚ → String)
    (totalUnits lineIndex cc : ℕ) (rest : List (List Char))
    (hdir : cfg.gradientDirection = "vertical") (htot : 1 < totalUnits) :
    renderLines cfg colorOf totalUnits lineIndex cc ([] :: rest) =
      "\x1b[" ++ colorOf (unitProgress cfg totalUnits lineIndex) ++ "\n" ++
        renderLines cfg colorOf totalUnits (lineIndex + 1) cc rest ∧
    unitProgress cfg totalUnits lineIndex =
      applySteps cfg.steps (applyInvert cfg.invert
        ((lineIndex : ℚ) / ((totalUnits : ℚ) - 1))) := by
  constructor
  · rw [renderLines, if_pos ⟨hdir, rfl, htot⟩]
  · rw [unitProgress, progressFor, progressBase, if_pos htot]

theorem vertical_empty_line_render_witness :
    renderLines ⟨"vertical", false, 0⟩ (fun _ => "38;2;0;0;0m") 2 0 0 ([] :: [['A']]) =
      "\x1b[" ++ "38;2;0;0;0m" ++ "\n" ++
        renderLines ⟨"vertical", false, 0⟩ (fun _ => "38;2;0;0;0m") 2 (0 + 1) 0 [['A']] ∧
    unitProgress ⟨"vertical", false, 0⟩ 2 0 =
      applySteps 0 (applyInvert false (((0 : ℕ) : ℚ) / (((2 : ℕ) : ℚ) - 1))) :=
  vertical_empty_line_render ⟨"vertical", false, 0⟩ (fun _ => "38;2;0;0;0m")
    2 0 0 [['A']] rfl (by norm_num)

/-- C9: for every input the rendered output ends with the full-reset
escape followed by a newline; on empty input the output is exactly
that; and whenever the early horizontal-all-empty return is not taken,
the output is the line loop's output followed by the single terminating
reset. -/
theorem renderRun_reset_terminated (cfg : RenderConfig) (colorOf : ℚ → String)
    (lines : List (List Char)) :
    (∃ s : String, renderRun cfg colorOf lines = s ++ "\x1b[0m\n") ∧
    renderRun cfg colorOf [] = "\x1b[0m\n" ∧
    (lines.length ≠ 0 →
      ¬(cfg.gradientDirection = "horizontal" ∧ totalGradientUnits cfg lines = 0) →
      renderRun cfg colorOf lines =
        renderLines cfg colorOf (totalGradientUnits cfg lines) 0 0 lines ++
          "\x1b[0m\n") := by
  refine ⟨?_, rfl, ?_⟩
  · by_cases h0 : lines.length = 0
    · exact ⟨"", by rw [renderRun, if_pos h0, String.empty_append]⟩
    · by_cases h1 : cfg.gradientDirection = "horizontal" ∧ totalGradientUnits cfg lines = 0
      · rw [renderRun, if_neg h0, if_pos h1, List.map_const']
        exact join_replicate_ends_with_reset lines.length h0
      · exact ⟨renderLines cfg colorOf (totalGradientUnits cfg lines) 0 0 lines,
          by rw [renderRun, if_neg h0, if_neg h1]⟩
  · intro h0 h1
    rw [renderRun, if_neg h0, if_neg h1]

theorem renderRun_reset_terminated_witness :
    (∃ s : String, renderRun ⟨"vertical", false, 0⟩ (fun _ => "38;2;0;0;0m") [['A']] =
      s ++ "\x1b[0m\n") ∧
    renderRun ⟨"vertical", false, 0⟩ (fun _ => "38;2;0;0;0m") [] = "\x1b[0m\n" ∧
    (List.length [['A']] ≠ 0 →
      ¬(RenderConfig.gradientDirection ⟨"vertical", false, 0⟩ = "horizontal" ∧
        totalGradientUnits ⟨"vertical", false, 0⟩ [['A']] = 0) →
      renderRun ⟨"vertical", false, 0⟩ (fun _ => "38;2;0;0;0m") [['A']] =
        renderLines ⟨"vertical", false, 0⟩ (fun _ => "38;2;0;0;0m")
          (totalGradientUnits ⟨"vertical", false, 0⟩ [['A']]) 0 0 [['A']] ++
          "\x1b[0m\n") :=
  renderRun_reset_terminated ⟨"vertical", false, 0⟩ (fun _ => "38;2;0;0;0m") [['A']]

/-- C10: a horizontal run whose input has at least one line but zero
characters in total emits exactly one reset escape plus newline per
input line and nothing else — no color escape and no additional
terminating reset. -/
theorem horizontal_all_empty_lines (cfg : RenderConfig) (colorOf : ℚ → String)
    (lines : List (List Char))
    (hdir : cfg.gradientDirection = "horizontal")
    (hne : lines.length ≠ 0) (hempty : ∀ l ∈ lines, l = []) :
    renderRun cfg colorOf lines =
      String.join (List.replicate lines.length "\x1b[0m\n") := by
  have htot : totalGradientUnits cfg lines = 0 := by
    rw [totalGradientUnits, if_pos hdir]
    apply List.sum_eq_zero
    intro x hx
    obtain ⟨l', hl', rfl⟩ := List.mem_map.mp hx
    rw [hempty l' hl']
    rfl
  rw [renderRun, if_neg hne, if_pos ⟨hdir, htot⟩, List.map_const']

/-! ## Flag validation (flag-library variant `main`, lines 348–392)

The checks run in source order; the first failing one prints a message
plus usage text and exits with status 1.  `colorful.Hex` is external:
its acceptance is modelled by `validHexColor` (Modelled from the spec:
colors are 6-hex-digit strings prefixed by `#`).  The check that
decides claim C7 — hue-direction is validated only under an HCL or LAB
colorspace — is translated verbatim from the source conditional. -/

/-- The parsed flag values plus the count of leftover positional
arguments (`flag.NArg()`). -/
structure Config where
  startColor : String
  endColor : String
  gradientDirection : String
  colorspace : String
  hueDirection : String
  steps : ℤ
  nargs : ℕ

/-- Which validation check fails first (each corresponds to one
`osExit(1)` site). -/
inductive ConfigError where
  | invalidStartColor
  | invalidEndColor
  | invalidGradientDirection
  | invalidColorspace
  | invalidHueDirection
  | negativeSteps
  | unexpectedArgs
  deriving DecidableEq

/-- The validation sequence of `main`: `none` means all checks pass and
rendering proceeds (exit 0 barring input errors); `some err` means the
program exits with status 1 at that check, before any output. -/
def validateConfig (cfg : Config) : Option ConfigError :=
  if validHexColor cfg.startColor = false then some .invalidStartColor
  else if validHexColor cfg.endColor = false then some .invalidEndColor
  else if cfg.gradientDirection ≠ "horizontal" ∧ cfg.gradientDirection ≠ "vertical" then
    some .invalidGradientDirection
  else if cfg.colorspace ≠ "rgb" ∧ cfg.colorspace ≠ "hcl" ∧ cfg.colorspace ≠ "lab" then
    some .invalidColorspace
  else if (cfg.colorspace = "hcl" ∨ cfg.colorspace = "lab") ∧
      (cfg.hueDirection ≠ "shortest" ∧ cfg.hueDirection ≠ "clockwise" ∧
        cfg.hueDirection ≠ "counter-clockwise") then
    some .invalidHueDirection
  else if cfg.steps < 0 then some .negativeSteps
  else if 0 < cfg.nargs then some .unexpectedArgs
  else none

/-- C7 (counterexample): with the default colorspace `rgb` and an
unrecognized hue-direction `"bogus"`, every validation check passes, so
the program renders output and exits 0 instead of failing with exit
code 1 as the claim asserts for every configuration. -/
theorem hueDirection_unvalidated_under_rgb :
    validateConfig ⟨"#FF0000", "#0000FF", "horizontal", "rgb", "bogus", 0, 0⟩ = none ∧
    ¬("bogus" = "shortest" ∨ "bogus" = "clockwise" ∨
      "bogus" = "counter-clockwise") := by
  constructor
  · decide
  · decide

/-- C7 (amended): an unrecognized hue-direction value is rejected with
exit code 1 only when the selected colorspace is `hcl` or `lab` (given
that the earlier checks pass); in every other case it is accepted, and
the cobra variant's blend treats any unrecognized value exactly as
`shortest`. -/
theorem hueDirection_validation (cfg : Config)
    (hsc : validHexColor cfg.startColor = true)
    (hec : validHexColor cfg.endColor = true)
    (hgd : cfg.gradientDirection = "horizontal" ∨ cfg.gradientDirection = "vertical")
    (hcs : cfg.colorspace = "hcl" ∨ cfg.colorspace = "lab")
    (hhd : cfg.hueDirection ≠ "shortest" ∧ cfg.hueDirection ≠ "clockwise" ∧
      cfg.hueDirection ≠ "counter-clockwise") :
    validateConfig cfg = some ConfigError.invalidHueDirection ∧
    ∀ (d : String) (h1 h2 : ℚ),
      d ≠ "shortest" → d ≠ "short" → d ≠ "sh" →
      d ≠ "clockwise" → d ≠ "cw" →
      d ≠ "counter-clockwise" → d ≠ "counterclockwise" → d ≠ "ccw" →
      hueDelta d h1 h2 = hueDelta "shortest" h1 h2 := by
  constructor
  · have hcs' : ¬(cfg.colorspace ≠ "rgb" ∧ cfg.colorspace ≠ "hcl" ∧
        cfg.colorspace ≠ "lab") := by
      rcases hcs with h | h <;> simp [h]
    have hgd' : ¬(cfg.gradientDirection ≠ "horizontal" ∧
        cfg.gradientDirection ≠ "vertical") := by
      rcases hgd with h | h <;> simp [h]
    rw [validateConfig, if_neg (by simp [hsc]), if_neg (by simp [hec]),
      if_neg hgd', if_neg hcs', if_pos ⟨hcs, hhd⟩]
  · intro d h1 h2 hd1 hd2 hd3 hd4 hd5 hd6 hd7 hd8
    have hrhs : hueDelta "shortest" h1 h2 = shortestFold (h2 - h1) := by
      simp [hueDelta]
    have hlhs : hueDelta d h1 h2 = shortestFold (h2 - h1) := by
      rw [hueDelta, if_neg (by simp [hd1, hd2, hd3]),
        if_neg (by simp [hd4, hd5]), if_neg (by simp [hd6, hd7, hd8])]
    rw [hlhs, hrhs]

theorem hueDirection_validation_witness :
    validateConfig ⟨"#FF0000", "#0000FF", "horizontal", "hcl", "bogus", 0, 0⟩ =
      some ConfigError.invalidHueDirection ∧
    ∀ (d : String) (h1 h2 : ℚ),
      d ≠ "shortest" → d ≠ "short" → d ≠ "sh" →
      d ≠ "clockwise" → d ≠ "cw" →
      d ≠ "counter-clockwise" → d ≠ "counterclockwise" → d ≠ "ccw" →
      hueDelta d h1 h2 = hueDelta "shortest" h1 h2 :=
  hueDirection_validation ⟨"#FF0000", "#0000FF", "horizontal", "hcl", "bogus", 0, 0⟩
    (by decide) (by decide) (Or.inl rfl) (Or.inl rfl) (by decide)

theorem horizontal_all_empty_lines_witness :
    renderRun ⟨"horizontal", false, 0⟩ (fun _ => "38;2;0;0;0m") [[], []] =
      String.join (List.replicate (List.length ([[], []] : List (List Char)))
        "\x1b[0m\n") :=
  horizontal_all_empty_lines ⟨"horizontal", false, 0⟩ (fun _ => "38;2;0;0;0m")
    [[], []] rfl (by norm_num) (by simp)

end Colorblend
